import Mathlib

/-!
Verification development for the shunbin incremental indexing engine.

The Rust sources are embedded shallowly:
- filesystem paths are modelled as UTF-8 strings (`Path::to_str` always
  succeeds in the model) resp. as lists of path segments inside the walker;
  the path separator is modelled as the Unix separator character;
- the tantivy write transaction is modelled as a list of pending writer
  operations (`delete_term` / `add_document`); committing applies the
  pending operations in order to the committed document list, a delete
  removing every document whose `id` field equals the deleted term;
- wall-clock reads (`Utc::now()`) are modelled by a clock function applied
  to a tick counter that is advanced at every read;
- fallible file reads are modelled by `String → Option String`
  (`none` = I/O error), and the `unwrap` on `lines().nth(0)` is modelled
  as a dedicated `panicked` error value;
- Rust `char::is_whitespace` is modelled by `Char.isWhitespace`.
-/

namespace Shunbin

/-- Model of `std::path::is_separator` (Unix). -/
def isSepChar (c : Char) : Bool := c == '/'

/-- Splits a character list at newline characters, with Rust
`str::lines` semantics for the trailing newline: a final newline does not
produce a trailing empty line. -/
def splitNl : List Char → List (List Char)
  | [] => []
  | c :: rest =>
    if c = '\n' then [] :: splitNl rest
    else
      match splitNl rest with
      | [] => [[c]]
      | l :: ls => (c :: l) :: ls

/-- Removes a single trailing carriage return, as Rust `str::lines` does
on each produced line. -/
def stripCrEnd (l : List Char) : List Char :=
  if l.getLast? = some '\r' then l.dropLast else l

/-- Model of Rust `str::lines` collected into a list. -/
def rustLines (s : List Char) : List (List Char) :=
  (splitNl s).map stripCrEnd

/-- Model of Rust `str::trim`: strip whitespace from both ends. -/
def trimChars (l : List Char) : List Char :=
  ((l.dropWhile (fun c => c.isWhitespace)).reverse.dropWhile
    (fun c => c.isWhitespace)).reverse

/-- Model of Rust `str::starts_with(".")`. -/
def startsWithDot (s : String) : Bool := s.data.head? == some '.'

/-- Model of Rust `str::strip_prefix` on strings: `stripRoot? s root`
returns the remainder of `s` after `root` when `root` is a prefix. -/
def stripRoot? (s root : String) : Option String :=
  if root.data.isPrefixOf s.data then some (String.mk (s.data.drop root.data.length))
  else none

/-- Title derivation of `Indexer::index_inner`: take a first line, strip
all leading `#` characters (`trim_start_matches("#")`), then trim
surrounding whitespace (`trim`). -/
def titleOfLine (line : List Char) : String :=
  String.mk (trimChars (line.dropWhile (fun c => c == '#')))

/-- Title derivation as the specification words it: the first line of the
file content, with any number of leading `#` heading markers and
surrounding whitespace stripped. -/
def specTitle (content : String) : String :=
  let firstLine := (rustLines content.data).headD []
  String.mk (trimChars (firstLine.dropWhile (fun c => c == '#')))

/-- Whether an `Except` result is an error. -/
def exceptIsError {ε α : Type} : Except ε α → Bool
  | .error _ => true
  | .ok _ => false

/-- An indexed document as assembled by `Indexer::index_inner`. -/
structure IndexDoc where
  title : String
  body : String
  source : String
  path : String
  updated_at : Nat
  id : String
deriving DecidableEq

/-- A pending operation recorded in the tantivy write transaction. -/
inductive WriterOp where
  | deleteTerm (id : String)
  | addDocument (doc : IndexDoc)
deriving DecidableEq

/-- Errors that abort an indexing pass in the model. -/
inductive IndexErr where
  | readFileErr (path : String)
  | panicked
deriving DecidableEq

/-- Whether a result is the error value that models the Rust panic of the
`unwrap` on `lines().nth(0)`. -/
def isPanicked {α : Type} : Except IndexErr α → Bool
  | .error .panicked => true
  | _ => false

/-- Applies pending writer operations in order to a document list:
`delete_term` removes every document whose `id` equals the term,
`add_document` appends. This is the pending-transaction semantics of the
external engine for the `id` primary key. -/
def applyOps : List WriterOp → List IndexDoc → List IndexDoc
  | [], docs => docs
  | .deleteTerm i :: rest, docs => applyOps rest (docs.filter (fun d => !(d.id == i)))
  | .addDocument d :: rest, docs => applyOps rest (docs ++ [d])

/-- Number of documents carrying a given identifier. -/
def countId (docs : List IndexDoc) (i : String) : Nat :=
  (docs.filter (fun d => d.id == i)).length

/-- Documents carrying a given identifier. -/
def docsWithId (docs : List IndexDoc) (i : String) : List IndexDoc :=
  docs.filter (fun d => d.id == i)

/-- Model of `Indexer::index_inner` (src/index.rs:116-165). Takes the
pending operations of the write transaction, the source name, the source
root path, the file path, the file-reading function, the clock and the
current tick; returns the new pending operations, whether a document was
added, and the new tick. Paths are modelled as UTF-8 strings, so the
`to_str` conversions always succeed. -/
def index_inner (ops : List WriterOp) (source_name source path : String)
    (readFile : String → Option String) (clock : Nat → Nat) (tick : Nat) :
    Except IndexErr (List WriterOp × Bool × Nat) :=
  match stripRoot? path source with
  | none => .ok (ops, false, tick)
  | some stripped =>
    let relative_path := String.mk (stripped.data.dropWhile isSepChar)
    let id := source_name ++ ":" ++ relative_path
    let ops1 := ops ++ [.deleteTerm id]
    match readFile path with
    | none => .error (.readFileErr path)
    | some body =>
      if body = "" then .ok (ops1, false, tick)
      else
        match (rustLines body.data).head? with
        | none => .error .panicked
        | some line =>
          let doc : IndexDoc :=
            { title := titleOfLine line
              body := body
              source := source_name
              path := relative_path
              updated_at := clock tick
              id := id }
          .ok (ops1 ++ [.addDocument doc], true, tick + 1)

/-- The document identifier `"<source-name>:<relative-path>"` computed by
`index_inner` from the path with the source root already stripped. -/
def docId (source_name stripped : String) : String :=
  source_name ++ ":" ++ String.mk (stripped.data.dropWhile isSepChar)

/-- The document that `index_inner` adds for a file with the given
root-stripped path and body, stamped at the given time. -/
def builtDoc (source_name stripped body : String) (ts : Nat) : IndexDoc :=
  { title := titleOfLine ((rustLines body.data).headD [])
    body := body
    source := source_name
    path := String.mk (stripped.data.dropWhile isSepChar)
    updated_at := ts
    id := docId source_name stripped }

/-! ## Filesystem model and the recursive walker (src/fs.rs, src/path.rs) -/

/-- A filesystem node: a regular file with an optional last-modified time
(`none` models a failing stat) and an optional content (`none` models a
failing read), or a directory with named entries. -/
inductive FsNode where
  | file (mtime : Option Nat) (content : Option String)
  | dir (entries : List (String × FsNode))

/-- Whether the node is a directory (`Path::is_dir`). -/
def FsNode.isDirNode : FsNode → Bool
  | .dir _ => true
  | .file _ _ => false

/-- Model of `PathExt::is_hidden` on a segment path: the final segment
starts with a dot. -/
def is_hidden (p : List String) : Bool :=
  (p.getLast?.map (fun f => startsWithDot f)).getD false

/-- Model of Rust `Path::extension`: the part of the file name after the
last dot, undefined when there is no dot after the first character. -/
def rustExtension (name : String) : Option String :=
  if (name.data.drop 1).contains '.' then
    some (String.mk ((name.data.reverse.takeWhile (fun c => c != '.')).reverse))
  else none

/-- Extension of the final path segment. -/
def extOf (p : List String) : Option String := p.getLast?.bind rustExtension

/-- Model of `PathExt::is_regular_file`: a regular (non-directory) entry
that is not hidden. -/
def is_regular_file (node : FsNode) (p : List String) : Bool :=
  !node.isDirNode && !is_hidden p

/-- Model of `PathExt::is_index_target`: regular file with a
case-sensitively allowed extension. -/
def is_index_target (node : FsNode) (p : List String) : Bool :=
  is_regular_file node p &&
    (match extOf p with
     | some e => e == "md" || e == "txt"
     | none => false)

/-- Cutoff test of `RecursiveReadDir::next`: keep a file unless a cutoff
is set and the file's modification time is known and not strictly greater
(`is_updated_after(..).unwrap_or(true)`, so a stat failure keeps the
file). -/
def keepFile : Option Nat → Option Nat → Bool
  | none, _ => true
  | some _, none => true
  | some t, some m => decide (t < m)

mutual
/-- Size of a filesystem node, for walker termination. -/
def sizeNode : FsNode → Nat
  | .file _ _ => 1
  | .dir es => 1 + sizeEntries es

/-- Total size of a directory's entries. -/
def sizeEntries : List (String × FsNode) → Nat
  | [] => 0
  | (_, n) :: es => sizeNode n + sizeEntries es
end

/-- One directory scan of `RecursiveReadDir::next`: in entry order, skip
hidden entries, push directories onto the pending queue, skip
non-indexable files, skip files rejected by the cutoff, and yield the
rest. Returns the yielded file paths and the enqueued directories. -/
def scanDir (cutoff : Option Nat) (segs : List String) :
    List (String × FsNode) →
      List (List String) × List (List String × List (String × FsNode))
  | [] => ([], [])
  | (name, node) :: rest =>
    let r := scanDir cutoff segs rest
    let p := segs ++ [name]
    if is_hidden p then r
    else
      match node with
      | .dir des => (r.1, (p, des) :: r.2)
      | .file mt ct =>
        if !(is_index_target (.file mt ct) p) then r
        else if !(keepFile cutoff mt) then r
        else (p :: r.1, r.2)

/-- Size of a walker queue. -/
def sizeQueue : List (List String × List (String × FsNode)) → Nat
  | [] => 0
  | (_, es) :: rest => 1 + sizeEntries es + sizeQueue rest

/-- The walking loop of `RecursiveReadDir::next`, collected into the full
list of yielded paths: scan the active directory, then continue with the
pending queue extended by the discovered subdirectories (breadth-first).
-/
def recursiveReadDir (cutoff : Option Nat)
    (queue : List (List String × List (String × FsNode))) : List (List String) :=
  match queue with
  | [] => []
  | (segs, es) :: rest =>
    (scanDir cutoff segs es).1 ++
      recursiveReadDir cutoff (rest ++ (scanDir cutoff segs es).2)
termination_by sizeQueue queue
decreasing_by
  rename_i segs
  have happ : ∀ a b : List (List String × List (String × FsNode)),
      sizeQueue (a ++ b) = sizeQueue a + sizeQueue b := by
    intro a b
    induction a with
    | nil => simp [sizeQueue]
    | cons hd tl ih => obtain ⟨x, y⟩ := hd; simp [sizeQueue, ih]; omega
  have hle : ∀ es0 : List (String × FsNode),
      sizeQueue (scanDir cutoff segs es0).2 ≤ sizeEntries es0 := by
    intro es0
    induction es0 with
    | nil => simp [scanDir, sizeQueue, sizeEntries]
    | cons hd tl ih =>
      obtain ⟨name, node⟩ := hd
      simp only [scanDir, sizeEntries]
      split
      · have : 1 ≤ sizeNode node := by cases node <;> simp [sizeNode]
        omega
      · cases node with
        | dir des =>
          simp only [sizeQueue, sizeNode]
          omega
        | file mt ct =>
          simp only [sizeNode]
          split
          · omega
          · split
            · omega
            · dsimp only
              omega
  simp only [sizeQueue, happ]
  have := hle es
  omega

/-- All indexable files under the queue together with their modification
times, ignoring any cutoff (auxiliary for stating the cutoff property).
-/
def scanDirAll (segs : List String) :
    List (String × FsNode) →
      List (List String × Option Nat) × List (List String × List (String × FsNode))
  | [] => ([], [])
  | (name, node) :: rest =>
    let r := scanDirAll segs rest
    let p := segs ++ [name]
    if is_hidden p then r
    else
      match node with
      | .dir des => (r.1, (p, des) :: r.2)
      | .file mt ct =>
        if !(is_index_target (.file mt ct) p) then r
        else ((p, mt) :: r.1, r.2)

/-- The walker with no cutoff, yielding each file with its modification
time. -/
def walkAll (queue : List (List String × List (String × FsNode))) :
    List (List String × Option Nat) :=
  match queue with
  | [] => []
  | (segs, es) :: rest =>
    (scanDirAll segs es).1 ++ walkAll (rest ++ (scanDirAll segs es).2)
termination_by sizeQueue queue
decreasing_by
  rename_i segs
  have happ : ∀ a b : List (List String × List (String × FsNode)),
      sizeQueue (a ++ b) = sizeQueue a + sizeQueue b := by
    intro a b
    induction a with
    | nil => simp [sizeQueue]
    | cons hd tl ih => obtain ⟨x, y⟩ := hd; simp [sizeQueue, ih]; omega
  have hle : ∀ es0 : List (String × FsNode),
      sizeQueue (scanDirAll segs es0).2 ≤ sizeEntries es0 := by
    intro es0
    induction es0 with
    | nil => simp [scanDirAll, sizeQueue, sizeEntries]
    | cons hd tl ih =>
      obtain ⟨name, node⟩ := hd
      simp only [scanDirAll, sizeEntries]
      split
      · have : 1 ≤ sizeNode node := by cases node <;> simp [sizeNode]
        omega
      · cases node with
        | dir des =>
          simp only [sizeQueue, sizeNode]
          omega
        | file mt ct =>
          simp only [sizeNode]
          split
          · omega
          · dsimp only
            omega
  simp only [sizeQueue, happ]
  have := hle es
  omega

/-- `ReachesN root segs node`: following the named segments `segs` from
`root` through directory entries arrives at `node`. -/
def ReachesN : FsNode → List String → FsNode → Prop
  | n, [], m => m = n
  | .file _ _, _ :: _, _ => False
  | .dir es, name :: segs, m => ∃ c, (name, c) ∈ es ∧ ReachesN c segs m

/-! ## Orchestrator (src/index.rs) -/

/-- The external engine's write-transaction state: pending operations and
committed documents. -/
structure Engine where
  pending : List WriterOp
  committed : List IndexDoc
deriving DecidableEq

/-- Model of `IndexWriter::commit`: apply the pending operations to the
committed documents and clear the pending list. -/
def commitEngine (e : Engine) : Engine :=
  { pending := [], committed := applyOps e.pending e.committed }

/-- In-memory watermark table of `TimestampManager`, keyed by
(index name, source name). -/
abbrev Tms := List ((String × String) × Nat)

/-- Model of `TimestampManager::get_timestamp`. -/
def get_timestamp (m : Tms) (index_name source_name : String) : Option Nat :=
  (m.find? (fun e => e.1 == (index_name, source_name))).map (fun e => e.2)

/-- In-memory effect of `TimestampManager::update` (the save-to-disk
failure is swallowed by the caller and does not roll back the entry). -/
def insertTms (m : Tms) (k : String × String) (v : Nat) : Tms :=
  (k, v) :: m.filter (fun e => !(e.1 == k))

/-- State of `Indexer`. -/
structure Indexer where
  tms : Option Tms
  count : Nat
  increment : Bool
deriving DecidableEq

/-- Cutoff chosen by `Indexer::read_source`: the stored watermark is used
only when increment mode is on, the timestamp manager initialized, and an
entry exists for the (index, source) pair. -/
def read_source_cutoff (ind : Indexer) (index_name source_name : String) : Option Nat :=
  if ind.increment then
    match ind.tms with
    | some m => get_timestamp m index_name source_name
    | none => none
  else none

/-- Model of `Indexer::update_timestamp`: a no-op when the timestamp
manager failed to initialize. -/
def update_timestamp (ind : Indexer) (index_name source_name : String)
    (start_at : Nat) : Indexer :=
  match ind.tms with
  | some m => { ind with tms := some (insertTms m (index_name, source_name) start_at) }
  | none => ind

/-- Observable events of an indexing run, in emission order. -/
inductive Event where
  | commit (source_name : String)
  | watermark (index_name source_name : String) (ts : Nat)
deriving DecidableEq

/-- Holds when, scanning an event list left to right with `prev` the
event just before the list, every watermark event is immediately preceded
by a commit event of the same source. -/
def wmImmediatelyAfterCommit : Option Event → List Event → Bool
  | _, [] => true
  | prev, e :: rest =>
    (match e with
     | .watermark _ s _ => prev == some (.commit s)
     | .commit _ => true) && wmImmediatelyAfterCommit (some e) rest

/-- Path of a walker-produced entry: the source root joined with each
segment in turn (`DirEntry::path`). -/
def segsPath (root : String) (segs : List String) : String :=
  segs.foldl (fun acc nm => acc ++ "/" ++ nm) root

/-- The walker-driving loop inside `Indexer::index`: run `index_inner`
on every yielded file, counting the files for which a document was
added; the first error aborts. -/
def indexFiles (source_name root : String) (readFile : String → Option String)
    (clock : Nat → Nat) :
    List (List String) → List WriterOp → Nat → Nat →
      Except IndexErr (List WriterOp × Nat × Nat)
  | [], ops, tick, cnt => .ok (ops, tick, cnt)
  | segs :: rest, ops, tick, cnt =>
    match index_inner ops source_name root (segsPath root segs) readFile clock tick with
    | .error e => .error e
    | .ok (ops2, added, tick2) =>
      indexFiles source_name root readFile clock rest ops2 tick2
        (if added then cnt + 1 else cnt)

/-- One source's pass of `Indexer::index` (the closure at
src/index.rs:59-82): record the start time, build the walker with the
`read_source` cutoff, drive it through `index_inner`, commit, update the
watermark to the recorded start time, and add to the total count. The
emitted events record the commit and (when the timestamp manager is
available) the watermark update, in execution order. -/
def indexSourcePass (index_name source_name root : String)
    (tree : List (String × FsNode)) (readFile : String → Option String)
    (clock : Nat → Nat) (ind : Indexer) (eng : Engine) (tick : Nat) :
    List Event × Except IndexErr (Indexer × Engine × Nat) :=
  let start_at := clock tick
  let files := recursiveReadDir (read_source_cutoff ind index_name source_name) [([], tree)]
  match indexFiles source_name root readFile clock files eng.pending (tick + 1) 0 with
  | .error e => ([], .error e)
  | .ok (ops, tick2, cnt) =>
    let eng2 := commitEngine { eng with pending := ops }
    let ind2 := update_timestamp ind index_name source_name start_at
    let events :=
      match ind.tms with
      | some _ => [Event.commit source_name,
                   Event.watermark index_name source_name start_at]
      | none => [Event.commit source_name]
    (events, .ok ({ ind2 with count := ind2.count + cnt }, eng2, tick2))

/-- Model of `Indexer::index` (src/index.rs:48-85): iterate the sources
of one index, aborting on the first failing source (`try_for_each`). -/
def Indexer.index (index_name : String) (readFile : String → Option String)
    (clock : Nat → Nat) :
    List (String × String × List (String × FsNode)) → Indexer → Engine → Nat →
      List Event × Except IndexErr (Indexer × Engine × Nat)
  | [], ind, eng, tick => ([], .ok (ind, eng, tick))
  | (source_name, root, tree) :: rest, ind, eng, tick =>
    match indexSourcePass index_name source_name root tree readFile clock ind eng tick with
    | (evs, .error e) => (evs, .error e)
    | (evs, .ok (ind2, eng2, tick2)) =>
      let r := Indexer.index index_name readFile clock rest ind2 eng2 tick2
      (evs ++ r.1, r.2)

/-- Model of `Indexer::index_file` (src/index.rs:87-114): for each source
of the index, run `index_inner` on the one explicit path and commit only
if a document was added. -/
def Indexer.index_file (path : String) (readFile : String → Option String)
    (clock : Nat → Nat) :
    List (String × String) → Indexer → Engine → Nat →
      List Event × Except IndexErr (Indexer × Engine × Nat)
  | [], ind, eng, tick => ([], .ok (ind, eng, tick))
  | (source_name, root) :: rest, ind, eng, tick =>
    match index_inner eng.pending source_name root path readFile clock tick with
    | .error e => ([], .error e)
    | .ok (ops, added, tick2) =>
      if added then
        let eng2 := commitEngine { eng with pending := ops }
        let r := Indexer.index_file path readFile clock rest
          { ind with count := ind.count + 1 } eng2 tick2
        (Event.commit source_name :: r.1, r.2)
      else
        Indexer.index_file path readFile clock rest ind
          { eng with pending := ops } tick2

/-! ## Search result mapper (src/search.rs) -/

/-- A search result (`Doc` in src/search.rs). -/
structure Doc where
  title : String
  updated_at : Nat
  source : String
  path : String
deriving DecidableEq

/-- Model of Rust `PathBuf::join`: joining an absolute path replaces the
base; otherwise a separator is added as needed. -/
def rustPathJoin (root p : String) : String :=
  if p.data.head? == some '/' then p
  else if root = "" then p
  else if root.data.getLast? == some '/' then root ++ p
  else root ++ "/" ++ p

/-- Model of `Doc::absolute_path` (src/search.rs:19-31). -/
def Doc.absolute_path (d : Doc) (sources : List (String × String)) :
    Except String String :=
  match sources.find? (fun kv => kv.1 == d.source) with
  | some kv => .ok (rustPathJoin kv.2 d.path)
  | none =>
    .error ("Failed to get the absolute path from source " ++ d.source ++
      " and path " ++ d.path ++ ".")

/-! ## Watermark store loading (src/index.rs:339-415) -/

/-- Model of Rust `str::splitn(2, sep)`: at most two pieces, split at the
first occurrence of the separator. -/
def rustSplitN2 (sep : Char) (s : String) : List String :=
  if s.data.contains sep then
    [String.mk (s.data.takeWhile (fun c => c != sep)),
     String.mk ((s.data.dropWhile (fun c => c != sep)).drop 1)]
  else [s]

/-- Model of `Deserialize for TimestampKey` (src/index.rs:401-415): a key
must split into exactly two pieces at the first colon. -/
def TimestampKey.deserialize (s : String) : Except String (String × String) :=
  match rustSplitN2 ':' s with
  | [p0, p1] => .ok (p0, p1)
  | _ => .error "expected index_name:source_name format"

/-- Model of `TimestampManager::new` (src/index.rs:347-364). The generic
TOML parse of the persisted file into a string-keyed table is external;
its result is the input here: `none` when the file does not exist,
`some kvs` for a table of raw keys and timestamp values. Every key is
deserialized through `TimestampKey.deserialize`; the first failure makes
the whole load fail. -/
def TimestampManager.new (fileContents : Option (List (String × Nat))) :
    Except String Tms :=
  match fileContents with
  | none => .ok []
  | some kvs =>
    kvs.mapM (fun kv => (TimestampKey.deserialize kv.1).map (fun k => (k, kv.2)))

/-! ## Walker lemmas -/

theorem scanDirAll_snd_eq (cutoff : Option Nat) (segs : List String)
    (es : List (String × FsNode)) :
    (scanDir cutoff segs es).2 = (scanDirAll segs es).2 := by
  induction es with
  | nil => simp [scanDir, scanDirAll]
  | cons hd tl ih =>
    obtain ⟨name, node⟩ := hd
    simp only [scanDir, scanDirAll]
    split
    · exact ih
    · cases node with
      | dir des => simpa using ih
      | file mt ct =>
        simp only
        split
        · exact ih
        · split <;> simpa using ih

theorem scanDir_fst_eq (cutoff : Option Nat) (segs : List String)
    (es : List (String × FsNode)) :
    (scanDir cutoff segs es).1 =
      ((scanDirAll segs es).1.filter (fun x => keepFile cutoff x.2)).map Prod.fst := by
  induction es with
  | nil => simp [scanDir, scanDirAll]
  | cons hd tl ih =>
    obtain ⟨name, node⟩ := hd
    simp only [scanDir, scanDirAll]
    split
    · exact ih
    · cases node with
      | dir des => simpa using ih
      | file mt ct =>
        simp only
        split
        · exact ih
        · rename_i htarget
          by_cases hk : keepFile cutoff mt
          · simp [hk, List.filter_cons, ih]
          · simp [hk, List.filter_cons, ih]

/-- The walker with a cutoff yields exactly the no-cutoff walk filtered
through the cutoff test, in the same order. -/
theorem recursiveReadDir_eq_filter (cutoff : Option Nat) :
    ∀ queue, recursiveReadDir cutoff queue =
      ((walkAll queue).filter (fun x => keepFile cutoff x.2)).map Prod.fst := by
  intro queue
  induction queue using recursiveReadDir.induct cutoff with
  | case1 => simp [recursiveReadDir, walkAll]
  | case2 segs es rest ih =>
    rw [recursiveReadDir, walkAll, ih, scanDir_fst_eq cutoff segs es,
      scanDirAll_snd_eq cutoff segs es]
    simp [List.filter_append]

theorem ReachesN_snoc {r : FsNode} {p : List String} {es : List (String × FsNode)}
    {name : String} {c : FsNode} (h : ReachesN r p (.dir es)) (hm : (name, c) ∈ es) :
    ReachesN r (p ++ [name]) c := by
  induction p generalizing r with
  | nil =>
    simp only [ReachesN] at h
    subst h
    exact ⟨c, hm, by simp [ReachesN]⟩
  | cons hd tl ih =>
    cases r with
    | file mt ct => exact absurd h (by simp [ReachesN])
    | dir es0 =>
      obtain ⟨c0, hc0, hr⟩ := h
      exact ⟨c0, hc0, ih hr⟩

theorem mem_scanDir_fst {cutoff : Option Nat} {segs : List String}
    {es : List (String × FsNode)} {x : List String} (hx : x ∈ (scanDir cutoff segs es).1) :
    ∃ name mt ct, x = segs ++ [name] ∧ (name, FsNode.file mt ct) ∈ es ∧
      is_hidden (segs ++ [name]) = false ∧
      is_index_target (.file mt ct) (segs ++ [name]) = true ∧
      keepFile cutoff mt = true := by
  induction es with
  | nil => simp [scanDir] at hx
  | cons hd tl ih =>
    obtain ⟨name, node⟩ := hd
    simp only [scanDir] at hx
    split at hx
    · obtain ⟨nm, mt, ct, h1, h2, h3⟩ := ih hx
      exact ⟨nm, mt, ct, h1, List.mem_cons_of_mem _ h2, h3⟩
    · rename_i hh
      cases node with
      | dir des =>
        obtain ⟨nm, mt, ct, h1, h2, h3⟩ := ih hx
        exact ⟨nm, mt, ct, h1, List.mem_cons_of_mem _ h2, h3⟩
      | file mt ct =>
        dsimp only at hx
        split at hx
        · obtain ⟨nm, mt', ct', h1, h2, h3⟩ := ih hx
          exact ⟨nm, mt', ct', h1, List.mem_cons_of_mem _ h2, h3⟩
        · split at hx
          · obtain ⟨nm, mt', ct', h1, h2, h3⟩ := ih hx
            exact ⟨nm, mt', ct', h1, List.mem_cons_of_mem _ h2, h3⟩
          · rename_i htarget hkeep
            rcases List.mem_cons.mp hx with h | h
            · refine ⟨name, mt, ct, h, List.mem_cons_self _ _, ?_, ?_, ?_⟩
              · simpa using hh
              · simpa using htarget
              · simpa using hkeep
            · obtain ⟨nm, mt', ct', h1, h2, h3⟩ := ih h
              exact ⟨nm, mt', ct', h1, List.mem_cons_of_mem _ h2, h3⟩

theorem mem_scanDir_snd {cutoff : Option Nat} {segs : List String}
    {es : List (String × FsNode)} {p : List String}
    {des : List (String × FsNode)} (hx : (p, des) ∈ (scanDir cutoff segs es).2) :
    ∃ name, p = segs ++ [name] ∧ (name, FsNode.dir des) ∈ es ∧
      is_hidden (segs ++ [name]) = false := by
  induction es with
  | nil => simp [scanDir] at hx
  | cons hd tl ih =>
    obtain ⟨name, node⟩ := hd
    simp only [scanDir] at hx
    split at hx
    · obtain ⟨nm, h1, h2, h3⟩ := ih hx
      exact ⟨nm, h1, List.mem_cons_of_mem _ h2, h3⟩
    · rename_i hh
      cases node with
      | dir des0 =>
        dsimp only at hx
        rcases List.mem_cons.mp hx with h | h
        · have hp : p = segs ++ [name] := congrArg Prod.fst h
          have hdes : des = des0 := congrArg Prod.snd h
          subst hdes
          exact ⟨name, hp, List.mem_cons_self _ _, by simpa using hh⟩
        · obtain ⟨nm, h1, h2, h3⟩ := ih h
          exact ⟨nm, h1, List.mem_cons_of_mem _ h2, h3⟩
      | file mt ct =>
        dsimp only at hx
        split at hx
        · obtain ⟨nm, h1, h2, h3⟩ := ih hx
          exact ⟨nm, h1, List.mem_cons_of_mem _ h2, h3⟩
        · split at hx
          · obtain ⟨nm, h1, h2, h3⟩ := ih hx
            exact ⟨nm, h1, List.mem_cons_of_mem _ h2, h3⟩
          · obtain ⟨nm, h1, h2, h3⟩ := ih hx
            exact ⟨nm, h1, List.mem_cons_of_mem _ h2, h3⟩

/-- Soundness of the walker with respect to the filesystem tree: every
yielded path follows non-hidden segments to a regular file with an
allowed extension that passes the cutoff test. -/
theorem recursiveReadDir_sound (cutoff : Option Nat) (root : List (String × FsNode)) :
    ∀ queue,
      (∀ pe ∈ queue, ReachesN (.dir root) pe.1 (.dir pe.2) ∧
        ∀ nm ∈ pe.1, startsWithDot nm = false) →
      ∀ segs ∈ recursiveReadDir cutoff queue,
        segs ≠ [] ∧ (∀ nm ∈ segs, startsWithDot nm = false) ∧
        (∃ mt ct, ReachesN (.dir root) segs (.file mt ct) ∧ keepFile cutoff mt = true) ∧
        (∃ nm, segs.getLast? = some nm ∧
          (rustExtension nm = some "md" ∨ rustExtension nm = some "txt")) := by
  intro queue
  induction queue using recursiveReadDir.induct cutoff with
  | case1 =>
    intro _ segs h
    simp [recursiveReadDir] at h
  | case2 segs0 es rest ih =>
    intro hinv x hx
    rw [recursiveReadDir] at hx
    have hqe := hinv (segs0, es) (List.mem_cons_self _ _)
    rcases List.mem_append.mp hx with h | h
    · obtain ⟨name, mt, ct, h1, h2, h3, h4, h5⟩ := mem_scanDir_fst h
      subst h1
      have hreach : ReachesN (.dir root) (segs0 ++ [name]) (.file mt ct) :=
        ReachesN_snoc hqe.1 h2
      have hlast : (segs0 ++ [name]).getLast? = some name := by
        simp
      have hnmh : startsWithDot name = false := by
        simp only [is_hidden, hlast] at h3
        simpa using h3
      refine ⟨by simp, ?_, ⟨mt, ct, hreach, h5⟩, ?_⟩
      · intro nm hnm
        rcases List.mem_append.mp hnm with h | h
        · exact hqe.2 nm h
        · simp only [List.mem_singleton] at h
          subst h
          exact hnmh
      · refine ⟨name, hlast, ?_⟩
        simp only [is_index_target, Bool.and_eq_true] at h4
        have hext := h4.2
        simp only [extOf, hlast, Option.bind] at hext
        cases hre : rustExtension name with
        | none => rw [hre] at hext; simp at hext
        | some e =>
          rw [hre] at hext
          simp only [Bool.or_eq_true, beq_iff_eq] at hext
          rcases hext with he | he <;> [left; right] <;> rw [he]
    · refine ih ?_ x h
      intro pe hpe
      rcases List.mem_append.mp hpe with hp | hp
      · exact hinv pe (List.mem_cons_of_mem _ hp)
      · obtain ⟨pp, ddes⟩ := pe
        obtain ⟨name, h1, h2, h3⟩ := mem_scanDir_snd hp
        subst h1
        have hreach : ReachesN (.dir root) (segs0 ++ [name]) (.dir ddes) :=
          ReachesN_snoc hqe.1 h2
        refine ⟨hreach, ?_⟩
        intro nm hnm
        rcases List.mem_append.mp hnm with hh | hh
        · exact hqe.2 nm hh
        · simp only [List.mem_singleton] at hh
          rw [hh]
          have hlast : (segs0 ++ [name]).getLast? = some name := by simp
          simp only [is_hidden, hlast] at h3
          simpa using h3

/-! ## Update builder lemmas -/

theorem splitNl_ne_nil {s : List Char} (h : s ≠ []) : splitNl s ≠ [] := by
  cases s with
  | nil => exact absurd rfl h
  | cons c cs =>
    simp only [splitNl]
    split
    · simp
    · split <;> simp

theorem rustLines_cons_of_ne_empty {b : String} (hb : b ≠ "") :
    ∃ l ls, rustLines b.data = l :: ls := by
  have hd : b.data ≠ [] := fun h => hb (String.ext (by simpa using h))
  cases hrl : rustLines b.data with
  | nil =>
    exfalso
    have hne := splitNl_ne_nil hd
    simp only [rustLines, List.map_eq_nil_iff] at hrl
    exact hne hrl
  | cons l ls => exact ⟨l, ls, rfl⟩

theorem applyOps_append (a b : List WriterOp) (docs : List IndexDoc) :
    applyOps (a ++ b) docs = applyOps b (applyOps a docs) := by
  induction a generalizing docs with
  | nil => simp [applyOps]
  | cons op rest ih => cases op <;> simp [applyOps, ih]

theorem filter_id_of_filter_ne (docs : List IndexDoc) (i : String) :
    (docs.filter (fun d => !(d.id == i))).filter (fun d => d.id == i) = [] := by
  induction docs with
  | nil => rfl
  | cons d rest ih =>
    by_cases h : d.id = i
    · simp [List.filter_cons, h, ih]
    · simp [List.filter_cons, h, ih]

/-- Claim C10: the `unwrap` on `lines().nth(0)` in `Indexer::index_inner`
is unreachable: it is guarded by the empty-content check, and every
non-empty string has at least one line, so `index_inner` never produces
the dedicated error value that models the panic. -/
theorem index_inner_never_panics (ops : List WriterOp) (source_name source path : String)
    (readFile : String → Option String) (clock : Nat → Nat) (tick : Nat) :
    isPanicked (index_inner ops source_name source path readFile clock tick) = false := by
  cases hs : stripRoot? path source with
  | none => simp [index_inner, hs, isPanicked]
  | some stripped =>
    cases hr : readFile path with
    | none => simp [index_inner, hs, hr, isPanicked]
    | some body =>
      by_cases hb : body = ""
      · simp [index_inner, hs, hr, hb, isPanicked]
      · obtain ⟨l, ls, hl⟩ := rustLines_cons_of_ne_empty hb
        simp [index_inner, hs, hr, hb, hl, isPanicked]

/-- Claim C4: for a file whose content reads as the empty string, the
update builder returns `false` and adds no document, but the delete of
the existing document under the file's identifier has already been
recorded, so no document with that identifier remains in the pending
state. -/
theorem index_inner_empty_content (ops : List WriterOp) (docs : List IndexDoc)
    (source_name source path stripped : String)
    (readFile : String → Option String) (clock : Nat → Nat) (tick : Nat)
    (hpre : stripRoot? path source = some stripped)
    (hread : readFile path = some "") :
    index_inner ops source_name source path readFile clock tick =
      .ok (ops ++ [.deleteTerm (source_name ++ ":" ++ String.mk (stripped.data.dropWhile isSepChar))],
        false, tick) ∧
    countId
      (applyOps (ops ++ [.deleteTerm (source_name ++ ":" ++ String.mk (stripped.data.dropWhile isSepChar))])
        docs)
      (source_name ++ ":" ++ String.mk (stripped.data.dropWhile isSepChar)) = 0 := by
  constructor
  · simp [index_inner, hpre, hread]
  · rw [applyOps_append]
    simp only [applyOps, countId]
    rw [filter_id_of_filter_ne]
    rfl

/-- Witness for C4 at a concrete input: an emptied file under
`/data/notes` has its old document deleted and adds nothing. -/
theorem index_inner_empty_content_witness :
    index_inner [] "notes" "/data/notes" "/data/notes/a.md"
        (fun _ => some "") (fun t => t) 0 =
      .ok ([.deleteTerm ("notes" ++ ":" ++ (String.mk ("/a.md".data.dropWhile isSepChar)))], false, 0) ∧
    countId
      (applyOps [.deleteTerm ("notes" ++ ":" ++ (String.mk ("/a.md".data.dropWhile isSepChar)))]
        [{ title := "A", body := "# A", source := "notes", path := "a.md",
           updated_at := 0, id := "notes:a.md" }])
      ("notes" ++ ":" ++ (String.mk ("/a.md".data.dropWhile isSepChar))) = 0 := by
  have h := index_inner_empty_content []
    [{ title := "A", body := "# A", source := "notes", path := "a.md",
       updated_at := 0, id := "notes:a.md" }]
    "notes" "/data/notes" "/data/notes/a.md" "/a.md"
    (fun _ => some "") (fun t => t) 0 rfl rfl
  simpa using h

/-- Claim C1: in the update builder, the insert of the new document is
preceded by a delete of the identifier `source-name:relative-path`, so
indexing the same (source, relative path) twice with different contents
leaves exactly one document with that identifier — the newest one — in
the pending transaction state. -/
theorem index_inner_reindex_no_duplicates (ops : List WriterOp) (docs : List IndexDoc)
    (source_name source path stripped : String)
    (rf1 rf2 : String → Option String) (clock : Nat → Nat) (tick : Nat)
    (b1 b2 : String)
    (hpre : stripRoot? path source = some stripped)
    (h1 : rf1 path = some b1) (hb1 : b1 ≠ "")
    (h2 : rf2 path = some b2) (hb2 : b2 ≠ "") :
    index_inner ops source_name source path rf1 clock tick =
      .ok (ops ++
        [.deleteTerm (docId source_name stripped),
         .addDocument (builtDoc source_name stripped b1 (clock tick))], true, tick + 1) ∧
    index_inner
        (ops ++
          [.deleteTerm (docId source_name stripped),
           .addDocument (builtDoc source_name stripped b1 (clock tick))])
        source_name source path rf2 clock (tick + 1) =
      .ok (ops ++
        [.deleteTerm (docId source_name stripped),
         .addDocument (builtDoc source_name stripped b1 (clock tick)),
         .deleteTerm (docId source_name stripped),
         .addDocument (builtDoc source_name stripped b2 (clock (tick + 1)))],
        true, tick + 2) ∧
    docsWithId
      (applyOps
        (ops ++
          [.deleteTerm (docId source_name stripped),
           .addDocument (builtDoc source_name stripped b1 (clock tick)),
           .deleteTerm (docId source_name stripped),
           .addDocument (builtDoc source_name stripped b2 (clock (tick + 1)))])
        docs)
      (docId source_name stripped) =
      [builtDoc source_name stripped b2 (clock (tick + 1))] := by
  obtain ⟨l1, ls1, hl1⟩ := rustLines_cons_of_ne_empty hb1
  obtain ⟨l2, ls2, hl2⟩ := rustLines_cons_of_ne_empty hb2
  refine ⟨?_, ?_, ?_⟩
  · simp [index_inner, hpre, h1, hb1, hl1, builtDoc, docId]
  · simp [index_inner, hpre, h2, hb2, hl2, builtDoc, docId]
  · rw [show ops ++
        [WriterOp.deleteTerm (docId source_name stripped),
         .addDocument (builtDoc source_name stripped b1 (clock tick)),
         .deleteTerm (docId source_name stripped),
         .addDocument (builtDoc source_name stripped b2 (clock (tick + 1)))] =
        (ops ++
          [WriterOp.deleteTerm (docId source_name stripped),
           .addDocument (builtDoc source_name stripped b1 (clock tick))]) ++
          [WriterOp.deleteTerm (docId source_name stripped),
           .addDocument (builtDoc source_name stripped b2 (clock (tick + 1)))] by simp,
      applyOps_append]
    simp only [applyOps]
    simp [docsWithId, List.filter_append, filter_id_of_filter_ne, builtDoc, docId]

/-- Witness for C1 at a concrete input: indexing `/data/notes/a.md` twice
with different contents leaves exactly the second document pending. -/
theorem index_inner_reindex_no_duplicates_witness :
    index_inner [] "notes" "/data/notes" "/data/notes/a.md"
        (fun _ => some "# A\ntext") (fun t => t) 0 =
      .ok ([.deleteTerm (docId "notes" "/a.md"),
            .addDocument (builtDoc "notes" "/a.md" "# A\ntext" 0)], true, 1) ∧
    index_inner
        [.deleteTerm (docId "notes" "/a.md"),
         .addDocument (builtDoc "notes" "/a.md" "# A\ntext" 0)]
        "notes" "/data/notes" "/data/notes/a.md"
        (fun _ => some "# B\nmore") (fun t => t) 1 =
      .ok ([.deleteTerm (docId "notes" "/a.md"),
            .addDocument (builtDoc "notes" "/a.md" "# A\ntext" 0),
            .deleteTerm (docId "notes" "/a.md"),
            .addDocument (builtDoc "notes" "/a.md" "# B\nmore" 1)], true, 2) ∧
    docsWithId
      (applyOps
        [.deleteTerm (docId "notes" "/a.md"),
         .addDocument (builtDoc "notes" "/a.md" "# A\ntext" 0),
         .deleteTerm (docId "notes" "/a.md"),
         .addDocument (builtDoc "notes" "/a.md" "# B\nmore" 1)] [])
      (docId "notes" "/a.md") = [builtDoc "notes" "/a.md" "# B\nmore" 1] := by
  have h := index_inner_reindex_no_duplicates [] [] "notes" "/data/notes"
    "/data/notes/a.md" "/a.md" (fun _ => some "# A\ntext") (fun _ => some "# B\nmore")
    (fun t => t) 0 "# A\ntext" "# B\nmore" (by decide) rfl (by decide) rfl (by decide)
  simpa using h

/-- Claim C7: every document added by the update builder carries as title
the first line of the file content with leading `#` markers and
surrounding whitespace stripped; in particular content
`"# Hello World\nbody..."` titles `"Hello World"` and `"No heading\n..."`
titles `"No heading"`. -/
theorem indexed_title_derivation :
    (∀ ops source_name source path readFile clock tick ops2 d tick2,
      index_inner ops source_name source path readFile clock tick =
        .ok (ops2 ++ [.addDocument d], true, tick2) →
      d.title = specTitle d.body) ∧
    specTitle "# Hello World\nbody..." = "Hello World" ∧
    specTitle "No heading\n..." = "No heading" := by
  refine ⟨?_, by decide, by decide⟩
  intro ops source_name source path readFile clock tick ops2 d tick2 h
  cases hs : stripRoot? path source with
  | none => simp [index_inner, hs] at h
  | some stripped =>
    cases hr : readFile path with
    | none => simp [index_inner, hs, hr] at h
    | some body =>
      by_cases hb : body = ""
      · simp [index_inner, hs, hr, hb] at h
      · cases hrl : rustLines body.data with
        | nil =>
          simp [index_inner, hs, hr, hb, hrl] at h
        | cons a as =>
          simp only [index_inner, hs, hr, if_neg hb, hrl, List.head?_cons] at h
          simp only [Except.ok.injEq, Prod.mk.injEq] at h
          obtain ⟨hlist, -, -⟩ := h
          have hdoc := congrArg List.getLast? hlist
          simp only [List.getLast?_concat] at hdoc
          have hdd := Option.some.inj hdoc
          injection hdd with hdd2
          rw [← hdd2]
          simp [specTitle, titleOfLine, hrl]

/-- Witness for C7 at a concrete input: the document built for content
`"# A\ntext"` has title equal to the spec-side derivation on its body. -/
theorem indexed_title_derivation_witness :
    (builtDoc "notes" "/a.md" "# A\ntext" 0).title =
      specTitle (builtDoc "notes" "/a.md" "# A\ntext" 0).body :=
  indexed_title_derivation.1 [] "notes" "/data/notes" "/data/notes/a.md"
    (fun _ => some "# A\ntext") (fun t => t) 0
    [.deleteTerm (docId "notes" "/a.md")] _ 1 (by rfl)

/-- Claim C3: with a cutoff `T` the walker yields exactly the indexable
files whose modification time is strictly greater than `T`, a stat
failure counting as include (fail open); and with no cutoff the walker
yields every indexable file, while full mode (`increment = false`) never
applies a stored watermark as cutoff. -/
theorem walker_cutoff_semantics :
    (∀ (t : Nat) (queue : List (List String × List (String × FsNode))),
      recursiveReadDir (some t) queue =
        ((walkAll queue).filter (fun x => keepFile (some t) x.2)).map Prod.fst) ∧
    (∀ queue, recursiveReadDir none queue = (walkAll queue).map Prod.fst) ∧
    (∀ (t m : Nat), keepFile (some t) (some m) = decide (t < m)) ∧
    (∀ (t : Nat), keepFile (some t) none = true) ∧
    (∀ (tms : Option Tms) (index_name source_name : String) (c : Nat),
      read_source_cutoff { tms := tms, count := c, increment := false }
        index_name source_name = none) := by
  refine ⟨fun t queue => recursiveReadDir_eq_filter (some t) queue, ?_,
    fun t m => rfl, fun t => rfl, fun tms i s c => rfl⟩
  intro queue
  rw [recursiveReadDir_eq_filter none queue]
  simp [keepFile]

/-- Claim C5: every path yielded by the walker reaches a regular file in
the tree through non-hidden segments only — so hidden files are never
yielded and files below hidden directories are never yielded — and its
final segment carries extension `md` or `txt`, matched case-sensitively.
-/
theorem walker_yields_only_index_targets (cutoff : Option Nat)
    (tree : List (String × FsNode)) (segs : List String)
    (h : segs ∈ recursiveReadDir cutoff [([], tree)]) :
    segs ≠ [] ∧ (∀ nm ∈ segs, startsWithDot nm = false) ∧
    (∃ mt ct, ReachesN (.dir tree) segs (.file mt ct)) ∧
    (∃ nm, segs.getLast? = some nm ∧
      (rustExtension nm = some "md" ∨ rustExtension nm = some "txt")) := by
  have hinv : ∀ pe ∈ ([(([] : List String), tree)] :
      List (List String × List (String × FsNode))),
      ReachesN (.dir tree) pe.1 (.dir pe.2) ∧
        ∀ nm ∈ pe.1, startsWithDot nm = false := by
    intro pe hpe
    simp only [List.mem_singleton] at hpe
    subst hpe
    exact ⟨by simp [ReachesN], by simp⟩
  have hs := recursiveReadDir_sound cutoff tree [([], tree)] hinv segs h
  obtain ⟨mt, ct, hr, -⟩ := hs.2.2.1
  exact ⟨hs.1, hs.2.1, ⟨mt, ct, hr⟩, hs.2.2.2⟩

/-- Witness for C5 at a concrete tree containing a hidden file and a
hidden directory: the yielded path `a.md` satisfies all the guarantees.
-/
theorem walker_yields_only_index_targets_witness :
    (["a.md"] : List String) ≠ [] ∧
    (∀ nm ∈ (["a.md"] : List String), startsWithDot nm = false) ∧
    (∃ mt ct, ReachesN
      (.dir [("a.md", FsNode.file (some 5) (some "x")),
             (".git", FsNode.dir [("x.md", FsNode.file none none)]),
             (".secret.md", FsNode.file none none)])
      ["a.md"] (.file mt ct)) ∧
    (∃ nm, (["a.md"] : List String).getLast? = some nm ∧
      (rustExtension nm = some "md" ∨ rustExtension nm = some "txt")) := by
  refine walker_yields_only_index_targets none _ ["a.md"] ?_
  simp [recursiveReadDir, scanDir, is_hidden, startsWithDot, is_index_target,
    is_regular_file, extOf, rustExtension, keepFile, FsNode.isDirNode]

/-- Claim C6: in the single-file pass a document can be added only for a
source whose root is a string prefix of the file's path; a source whose
root is not a prefix makes the relative-path computation fail, so that
source changes nothing — no delete, no document, no commit — and the
single-file pass treats it exactly as if it were absent. -/
theorem index_file_prefix_only :
    (∀ ops source_name source path readFile clock tick ops2 added tick2,
      index_inner ops source_name source path readFile clock tick =
        .ok (ops2, added, tick2) → added = true →
      source.data.isPrefixOf path.data = true) ∧
    (∀ ops source_name source path readFile clock tick,
      source.data.isPrefixOf path.data = false →
      index_inner ops source_name source path readFile clock tick =
        .ok (ops, false, tick)) ∧
    (∀ path readFile clock source_name root rest ind eng tick,
      root.data.isPrefixOf path.data = false →
      Indexer.index_file path readFile clock ((source_name, root) :: rest) ind eng tick =
        Indexer.index_file path readFile clock rest ind eng tick) := by
  have hskip : ∀ ops source_name source path readFile clock tick,
      source.data.isPrefixOf path.data = false →
      index_inner ops source_name source path readFile clock tick =
        .ok (ops, false, tick) := by
    intro ops sn src p rf clock tick hp
    have hnone : stripRoot? p src = none := by simp [stripRoot?, hp]
    simp [index_inner, hnone]
  refine ⟨?_, hskip, ?_⟩
  · intro ops sn src p rf clock tick ops2 added tick2 h hadd
    cases hp : src.data.isPrefixOf p.data with
    | true => rfl
    | false =>
      rw [hskip ops sn src p rf clock tick hp] at h
      simp only [Except.ok.injEq, Prod.mk.injEq] at h
      rw [hadd] at h
      exact absurd h.2.1 (by simp)
  · intro p rf clock sn root rest ind eng tick hp
    have h2 := hskip eng.pending sn root p rf clock tick hp
    simp only [Indexer.index_file, h2]
    rfl

/-- Witness for C6 at a concrete input: a source rooted at `/other` is
skipped unchanged by the single-file pass for `/data/notes/a.md`. -/
theorem index_file_prefix_only_witness :
    Indexer.index_file "/data/notes/a.md" (fun _ => none) (fun t => t)
        [("other", "/other")] { tms := none, count := 0, increment := true }
        { pending := [], committed := [] } 0 =
      Indexer.index_file "/data/notes/a.md" (fun _ => none) (fun t => t)
        [] { tms := none, count := 0, increment := true }
        { pending := [], committed := [] } 0 :=
  index_file_prefix_only.2.2 "/data/notes/a.md" (fun _ => none) (fun t => t)
    "other" "/other" [] { tms := none, count := 0, increment := true }
    { pending := [], committed := [] } 0 (by decide)

/-- Claim C8: `absolute_path` fails exactly when the result's source name
is absent from the supplied source map, and otherwise returns the mapped
root joined with the stored relative path, unconditionally. -/
theorem absolute_path_semantics (d : Doc) (sources : List (String × String)) :
    (exceptIsError (d.absolute_path sources) = true ↔
      ∀ kv ∈ sources, kv.1 ≠ d.source) ∧
    (∀ kv, sources.find? (fun x => x.1 == d.source) = some kv →
      d.absolute_path sources = .ok (rustPathJoin kv.2 d.path)) := by
  constructor
  · cases hf : sources.find? (fun x => x.1 == d.source) with
    | none =>
      have hall := List.find?_eq_none.mp hf
      simp only [Doc.absolute_path, hf, exceptIsError]
      constructor
      · intro _ kv hkv
        have := hall kv hkv
        simpa using this
      · intro _
        trivial
    | some kv =>
      have hp := List.find?_some hf
      have hmem := List.mem_of_find?_eq_some hf
      simp only [Doc.absolute_path, hf, exceptIsError]
      constructor
      · intro hfalse
        cases hfalse
      · intro hall
        exact absurd (by simpa using hp) (hall kv hmem)
  · intro kv hkv
    simp [Doc.absolute_path, hkv]

/-- Witness for C8 at a concrete input: the source `notes` is present, so
the absolute path is the root joined with the relative path. -/
theorem absolute_path_semantics_witness :
    Doc.absolute_path { title := "T", updated_at := 0, source := "notes", path := "a.md" }
        [("notes", "/data/notes")] =
      .ok (rustPathJoin "/data/notes" "a.md") :=
  (absolute_path_semantics
    { title := "T", updated_at := 0, source := "notes", path := "a.md" }
    [("notes", "/data/notes")]).2 ("notes", "/data/notes") (by decide)

theorem deserialize_error_eq {s e : String}
    (h : TimestampKey.deserialize s = .error e) :
    e = "expected index_name:source_name format" := by
  unfold TimestampKey.deserialize at h
  split at h
  · exact absurd h (by simp)
  · simpa using h.symm

/-- Claim C9: loading the watermark store yields an empty store (not an
error) when no persisted table exists; a persisted table holding a key
without the colon separator makes the load fail with the parse error.
(The generic TOML parse of the file is external; the modelled input is
its string-keyed result table.) -/
theorem timestamp_load_semantics :
    TimestampManager.new none = .ok [] ∧
    (∀ (kvs : List (String × Nat)) (k : String) (v : Nat),
      (k, v) ∈ kvs → ':' ∉ k.data →
      TimestampManager.new (some kvs) =
        .error "expected index_name:source_name format") := by
  refine ⟨rfl, ?_⟩
  intro kvs k v hmem hc
  induction kvs with
  | nil => simp at hmem
  | cons kv rest ih =>
    rcases List.mem_cons.mp hmem with h | h
    · have hk : kv.1 = k := by rw [← h]
      have hsplit : rustSplitN2 ':' k = [k] := by
        simp [rustSplitN2, hc]
      have hdes : TimestampKey.deserialize k =
          .error "expected index_name:source_name format" := by
        simp [TimestampKey.deserialize, hsplit]
      simp only [TimestampManager.new, List.mapM_cons, hk, hdes]
      rfl
    · have htail := ih h
      simp only [TimestampManager.new] at htail
      simp only [TimestampManager.new, List.mapM_cons]
      cases hd : (TimestampKey.deserialize kv.1).map (fun key => (key, kv.2)) with
      | error e =>
        have he : e = "expected index_name:source_name format" := by
          cases hds : TimestampKey.deserialize kv.1 with
          | error e2 =>
            rw [hds] at hd
            simp only [Except.map] at hd
            cases hd
            exact deserialize_error_eq hds
          | ok val =>
            rw [hds] at hd
            simp [Except.map] at hd
        simp only [hd, he]
        rfl
      | ok y =>
        simp only [hd, htail]
        rfl

/-- Witness for C9: a key without a colon fails the load with the parse
error. -/
theorem timestamp_load_semantics_witness :
    TimestampManager.new (some [("nocolon", 5)]) =
      .error "expected index_name:source_name format" :=
  timestamp_load_semantics.2 [("nocolon", 5)] "nocolon" 5 (by decide) (by decide)

theorem index_inner_tick_le {ops : List WriterOp} {sn src p : String}
    {rf : String → Option String} {clock : Nat → Nat} {tick : Nat}
    {ops2 : List WriterOp} {added : Bool} {tick2 : Nat}
    (h : index_inner ops sn src p rf clock tick = .ok (ops2, added, tick2)) :
    tick ≤ tick2 := by
  cases hs : stripRoot? p src with
  | none =>
    simp only [index_inner, hs, Except.ok.injEq, Prod.mk.injEq] at h
    omega
  | some stripped =>
    cases hr : rf p with
    | none => simp [index_inner, hs, hr] at h
    | some body =>
      by_cases hb : body = ""
      · simp only [index_inner, hs, hr, if_pos hb, Except.ok.injEq, Prod.mk.injEq] at h
        omega
      · cases hl : (rustLines body.data).head? with
        | none => simp [index_inner, hs, hr, hb, hl] at h
        | some line =>
          simp only [index_inner, hs, hr, if_neg hb, hl, Except.ok.injEq,
            Prod.mk.injEq] at h
          omega

theorem indexFiles_tick_le {sn root : String} {rf : String → Option String}
    {clock : Nat → Nat} :
    ∀ (files : List (List String)) (ops : List WriterOp) (tick cnt : Nat)
      (ops2 : List WriterOp) (tick2 cnt2 : Nat),
      indexFiles sn root rf clock files ops tick cnt = .ok (ops2, tick2, cnt2) →
      tick ≤ tick2 := by
  intro files
  induction files with
  | nil =>
    intro ops tick cnt ops2 tick2 cnt2 h
    simp only [indexFiles, Except.ok.injEq, Prod.mk.injEq] at h
    omega
  | cons segs rest ih =>
    intro ops tick cnt ops2 tick2 cnt2 h
    simp only [indexFiles] at h
    cases hi : index_inner ops sn root (segsPath root segs) rf clock tick with
    | error e =>
      simp only [hi] at h
      exact absurd h (by simp)
    | ok res =>
      obtain ⟨ops1, added, tick1⟩ := res
      simp only [hi] at h
      have h1 := index_inner_tick_le hi
      have h2 := ih ops1 tick1 _ ops2 tick2 cnt2 h
      omega

theorem indexSourcePass_events (i s root : String) (tree : List (String × FsNode))
    (rf : String → Option String) (clock : Nat → Nat) (ind : Indexer) (eng : Engine)
    (tick : Nat) :
    (indexSourcePass i s root tree rf clock ind eng tick).1 = [] ∨
    (indexSourcePass i s root tree rf clock ind eng tick).1 = [.commit s] ∨
    (indexSourcePass i s root tree rf clock ind eng tick).1 =
      [.commit s, .watermark i s (clock tick)] := by
  simp only [indexSourcePass]
  cases hF : indexFiles s root rf clock
      (recursiveReadDir (read_source_cutoff ind i s) [([], tree)])
      eng.pending (tick + 1) 0 with
  | error e => left; rfl
  | ok res =>
    obtain ⟨ops, tick2, cnt⟩ := res
    cases htms : ind.tms with
    | none => right; left; rfl
    | some m => right; right; rfl

theorem wm_aux (i : String) (rf : String → Option String) (clock : Nat → Nat) :
    ∀ (sources : List (String × String × List (String × FsNode)))
      (ind : Indexer) (eng : Engine) (tick : Nat) (prev : Option Event),
      wmImmediatelyAfterCommit prev
        (Indexer.index i rf clock sources ind eng tick).1 = true := by
  intro sources
  induction sources with
  | nil =>
    intro ind eng tick prev
    simp [Indexer.index, wmImmediatelyAfterCommit]
  | cons src rest ih =>
    intro ind eng tick prev
    obtain ⟨s, root, tree⟩ := src
    rcases hev : indexSourcePass i s root tree rf clock ind eng tick with ⟨evs, r⟩
    have hshapes := indexSourcePass_events i s root tree rf clock ind eng tick
    rw [hev] at hshapes
    simp only at hshapes
    cases r with
    | error e =>
      simp only [Indexer.index, hev]
      rcases hshapes with h | h | h <;> subst h <;>
        simp [wmImmediatelyAfterCommit]
    | ok res =>
      obtain ⟨ind2, eng2, tick2⟩ := res
      simp only [Indexer.index, hev]
      rcases hshapes with h | h | h <;> subst h <;>
        simp [wmImmediatelyAfterCommit, ih]

/-- Claim C2: in the per-index pass, every watermark event is immediately
preceded by that source's commit event; a successful source pass advances
the watermark for the (index, source) pair exactly to the clock value
read at the start of the pass (the completion tick being strictly later),
and a source pass that aborts before commit emits neither a commit nor a
watermark event, leaving the watermark unadvanced. -/
theorem watermark_commit_semantics :
    (∀ (index_name : String) (readFile : String → Option String) (clock : Nat → Nat)
        (sources : List (String × String × List (String × FsNode)))
        (ind : Indexer) (eng : Engine) (tick : Nat),
      wmImmediatelyAfterCommit none
        (Indexer.index index_name readFile clock sources ind eng tick).1 = true) ∧
    (∀ (index_name source_name root : String) (tree : List (String × FsNode))
        (readFile : String → Option String) (clock : Nat → Nat)
        (ind : Indexer) (eng : Engine) (tick : Nat) (m : Tms)
        (evs : List Event) (ind2 : Indexer) (eng2 : Engine) (tick2 : Nat),
      ind.tms = some m →
      indexSourcePass index_name source_name root tree readFile clock ind eng tick =
        (evs, .ok (ind2, eng2, tick2)) →
      evs = [.commit source_name,
             .watermark index_name source_name (clock tick)] ∧
      ind2.tms = some (insertTms m (index_name, source_name) (clock tick)) ∧
      get_timestamp (insertTms m (index_name, source_name) (clock tick))
        index_name source_name = some (clock tick) ∧
      tick + 1 ≤ tick2) ∧
    (∀ (index_name source_name root : String) (tree : List (String × FsNode))
        (readFile : String → Option String) (clock : Nat → Nat)
        (ind : Indexer) (eng : Engine) (tick : Nat)
        (evs : List Event) (e : IndexErr),
      indexSourcePass index_name source_name root tree readFile clock ind eng tick =
        (evs, .error e) →
      evs = []) := by
  refine ⟨fun i rf clock sources ind eng tick => wm_aux i rf clock sources ind eng tick none,
    ?_, ?_⟩
  · intro i s root tree rf clock ind eng tick m evs ind2 eng2 tick2 hm hrun
    simp only [indexSourcePass, hm, update_timestamp] at hrun
    cases hF : indexFiles s root rf clock
        (recursiveReadDir (read_source_cutoff ind i s) [([], tree)])
        eng.pending (tick + 1) 0 with
    | error e => simp [hF] at hrun
    | ok res =>
      obtain ⟨ops, t2, cnt⟩ := res
      simp only [hF, Prod.mk.injEq, Except.ok.injEq] at hrun
      obtain ⟨hevs, hind2, heng2, htick⟩ := hrun
      refine ⟨hevs.symm, ?_, ?_, ?_⟩
      · rw [← hind2]
      · simp [get_timestamp, insertTms]
      · have := indexFiles_tick_le _ _ _ _ _ _ _ hF
        omega
  · intro i s root tree rf clock ind eng tick evs e hrun
    simp only [indexSourcePass] at hrun
    cases hF : indexFiles s root rf clock
        (recursiveReadDir (read_source_cutoff ind i s) [([], tree)])
        eng.pending (tick + 1) 0 with
    | error e2 =>
      simp only [hF, Prod.mk.injEq] at hrun
      exact hrun.1.symm
    | ok res =>
      obtain ⟨ops, t2, cnt⟩ := res
      cases htms : ind.tms <;> simp [hF, htms] at hrun

/-- Witness for C2 at a concrete input: one source with an empty tree;
the pass emits the commit then the watermark stamped with the start
time, and the stored watermark for the pair is that start time. -/
theorem watermark_commit_semantics_witness :
    indexSourcePass "docs" "notes" "/data/notes" [] (fun _ => none) (fun t => t)
        { tms := some [], count := 0, increment := false }
        { pending := [], committed := [] } 0 =
      ([.commit "notes", .watermark "docs" "notes" 0],
        .ok ({ tms := some [(("docs", "notes"), 0)], count := 0, increment := false },
          { pending := [], committed := [] }, 1)) ∧
    get_timestamp (insertTms [] ("docs", "notes") 0) "docs" "notes" = some 0 ∧
    0 + 1 ≤ 1 := by
  have hrun : indexSourcePass "docs" "notes" "/data/notes" [] (fun _ => none)
      (fun t => t) { tms := some [], count := 0, increment := false }
      { pending := [], committed := [] } 0 =
    ([.commit "notes", .watermark "docs" "notes" 0],
      .ok ({ tms := some [(("docs", "notes"), 0)], count := 0, increment := false },
        { pending := [], committed := [] }, 1)) := by
    simp [indexSourcePass, indexFiles, recursiveReadDir, scanDir, read_source_cutoff,
      update_timestamp, insertTms, commitEngine, applyOps]
  have h := watermark_commit_semantics.2.1 "docs" "notes" "/data/notes" []
    (fun _ => none) (fun t => t) { tms := some [], count := 0, increment := false }
    { pending := [], committed := [] } 0 [] _ _ _ _ rfl hrun
  exact ⟨hrun, h.2.2.1, h.2.2.2⟩

end Shunbin
